import Mathlib

/-
  Verification development for the morphism schema-transformation engine.

  The repository ships the type declarations of the engine (src/src/types.ts:
  Schema, ActionString, ActionFunction, ActionAggregator, ActionSelector,
  Mapper).  The executable engine itself (path resolver, action classifier,
  plan building, executor, single/batch dispatch) is not among the shipped
  sources, so it is modelled here from the specification, section by section.

  Conventions of the embedding:
  - JavaScript values are modelled by the inductive type Value; the JS value
    undefined is the constructor Value.undefined, objects are ordered association
    lists (insertion order preserved, as in JS), arrays are lists.
  - User-supplied callables return Except String Value: a thrown JS error is
    modelled as Except.error carrying the error condition.
  - Dotted paths are split on the dot character; flattened destination paths
    are represented by their segment lists (the dot-joined string of the
    specification corresponds to the list of its segments).
-/

namespace Morphism

/-- Modelled from the spec (section 3, source record / target record): a
JavaScript-like value. Objects are ordered association lists of fields, as
JS objects preserve insertion order; undefined models the JS undefined value. -/
inductive Value : Type where
  | undefined : Value
  | boolean : Bool → Value
  | num : Int → Value
  | str : String → Value
  | obj : List (String × Value) → Value
  | arr : List Value → Value

/-- Field lookup in an object, first match wins (JS objects have unique keys,
but the model tolerates duplicates by taking the first). -/
def lookupField : List (String × Value) → String → Option Value
  | [], _ => none
  | (k0, v0) :: rest, k => if k0 = k then some v0 else lookupField rest k

/-- Field assignment: an existing key keeps its position and gets the new
value, a new key is appended at the end, matching JS object insertion order. -/
def setField : List (String × Value) → String → Value → List (String × Value)
  | [], k, v => [(k, v)]
  | (k0, v0) :: rest, k, v =>
    if k0 = k then (k0, v) :: rest else (k0, v0) :: setField rest k v

/-- Splits a character list on the dot character; an empty input yields one
empty segment, as the JS string split does. -/
def splitSegs : List Char → List (List Char)
  | [] => [[]]
  | c :: rest =>
    if c = '.' then [] :: splitSegs rest
    else
      match splitSegs rest with
      | [] => [[c]]
      | s :: ss => (c :: s) :: ss

/-- Modelled from the spec (section 4.1): splitting a dotted path string on
the dot character into its segments. -/
def splitPath (p : String) : List String :=
  (splitSegs p.toList).map (fun cs => String.mk cs)

/-- Final dot-separated segment of a path (the aggregator result key). -/
def lastSeg (p : String) : String :=
  (splitPath p).getLastD ("")

/-- Accumulates a decimal value over a digit list, failing on a non-digit. -/
def digitsVal : Nat → List Char → Option Nat
  | acc, [] => some acc
  | acc, c :: rest =>
    if c.isDigit then digitsVal (acc * 10 + (c.toNat - 48)) rest else none

/-- Parses a numeric-looking segment into a sequence index. -/
def toIndex (s : String) : Option Nat :=
  match s.toList with
  | [] => none
  | cs => digitsVal 0 cs

/-- Modelled from the spec (sections 4.1 and 7): one resolution step. An
object is indexed by key, an ordered sequence by a numeric-looking segment;
a missing key, an out-of-range index or a non-indexable container yields
none (the missing-path case). -/
def getStep : Value → String → Option Value
  | .obj fields, seg => lookupField fields seg
  | .arr elems, seg =>
    match toIndex seg with
    | some i => elems.get? i
    | none => none
  | _, _ => none

/-- Modelled from the spec (section 4.1): walks the record segment by
segment, substituting undefined as soon as a step fails. -/
def walk : Value → List String → Value
  | v, [] => v
  | v, seg :: rest =>
    match getStep v seg with
    | some w => walk w rest
    | none => .undefined

/-- Modelled from the spec (section 4.1): resolve(record, path) splits the
path on the dot character and walks the record. -/
def resolve (record : Value) (path : String) : Value :=
  walk record (splitPath path)

/-- Specification-side description of full-chain resolution: some leaf when
every step of the segment chain exists, none as soon as a step fails. Used
to state the Path Resolver contract as a refinement. -/
def chain : Value → List String → Option Value
  | v, [] => some v
  | v, seg :: rest => (getStep v seg).bind (fun w => chain w rest)

/-- Modelled from the spec (section 4.4, aggregator action): resolve each
listed path and build a result object keyed by the final segment of each
path, in list order; a later duplicate final segment overwrites the earlier
key in place, as JS object assignment does. -/
def aggregate (paths : List String) (record : Value) : Value :=
  .obj (paths.foldl (fun fields p => setField fields (lastSeg p) (resolve record p)) [])

/-- User-supplied Function action (src/src/types.ts ActionFunction): receives
the iteratee (current source record), the source collection and the
in-progress target; a thrown error is an Except.error result. -/
abbrev Fn := Value → List Value → Value → Except String Value

/-- User-supplied Selector transform (src/src/types.ts ActionSelector fn):
receives the resolved field value, the source record, the source collection
and the in-progress target. -/
abbrev SelFn := Value → Value → List Value → Value → Except String Value

/-- Path member of a Selector action (src/src/types.ts ActionSelector path):
either a single path string or an aggregator path list. -/
inductive SelPath : Type where
  | single : String → SelPath
  | multi : List String → SelPath

/-- Modelled from the spec (section 4.4, selector action): resolve the path
member with Path or Aggregator semantics. -/
def resolveSel : SelPath → Value → Value
  | .single p, record => resolve record p
  | .multi ps, record => aggregate ps record

/-- Modelled from the spec (sections 3 and 4.2): the declared shape of one
schema entry. The five recognized forms are a path string, a sequence of
path strings, a callable, a path-plus-function pair and a nested
sub-schema; the constructor named other stands for any declared shape
matching none of the five recognized forms (for instance a bare number). -/
inductive Decl : Type where
  | str : String → Decl
  | strList : List String → Decl
  | callable : Fn → Decl
  | selector : SelPath → SelFn → Decl
  | nested : List (String × Decl) → Decl
  | other : Value → Decl

/-- A schema: destination keys in declaration order, each with a declared
action (src/src/types.ts Schema / StrictSchema). -/
abbrev SchemaM := List (String × Decl)

/-- A classified terminal action of the Plan (spec section 4.2): path,
aggregator, function or selector; nested schemas are flattened away. -/
inductive TerminalAction : Type where
  | path : String → TerminalAction
  | aggregator : List String → TerminalAction
  | func : Fn → TerminalAction
  | selector : SelPath → SelFn → TerminalAction

/-- One Plan entry (spec section 3): a flattened destination path, kept as
its segment list, with its classified terminal action. -/
structure PlanEntry : Type where
  dest : List String
  action : TerminalAction

/-- The condition signalled on a schema entry matching none of the five
recognized action forms (spec section 7, malformed-action). -/
def invalidSchemaAction : String := "InvalidSchemaAction"

/-- Modelled from the spec (section 4.3): walks schema keys in declaration
order, classifies each declared action, flattens a nested sub-schema by
prepending the current key to the destination paths of its recursively
built entries and splices them in place, and fails fast with the
InvalidSchemaAction condition on a declared shape matching none of the five
recognized forms. -/
def buildPlan : SchemaM → Except String (List PlanEntry)
  | [] => .ok []
  | (k, d) :: rest =>
    match d with
    | .str p => (buildPlan rest).map (fun tail => ⟨[k], .path p⟩ :: tail)
    | .strList ps => (buildPlan rest).map (fun tail => ⟨[k], .aggregator ps⟩ :: tail)
    | .callable f => (buildPlan rest).map (fun tail => ⟨[k], .func f⟩ :: tail)
    | .selector sp f => (buildPlan rest).map (fun tail => ⟨[k], .selector sp f⟩ :: tail)
    | .nested es =>
      match buildPlan es with
      | .error e => .error e
      | .ok sub =>
        (buildPlan rest).map
          (fun tail => (sub.map (fun pe => ⟨k :: pe.dest, pe.action⟩)) ++ tail)
    | .other _ => .error invalidSchemaAction

/-- Modelled from the spec (section 4.4): executes one classified action
against the source record, the source collection and the in-progress
target. Path and aggregator actions cannot fail; function and selector
actions propagate the result of the user-supplied callable unmodified. -/
def executeAction : TerminalAction → Value → List Value → Value → Except String Value
  | .path p, record, _, _ => .ok (resolve record p)
  | .aggregator ps, record, _, _ => .ok (aggregate ps record)
  | .func f, record, coll, tgt => f record coll tgt
  | .selector sp f, record, coll, tgt => f (resolveSel sp record) record coll tgt

/-- Modelled from the spec (section 4.5): assigns a value at a destination
path inside the target, creating intermediate nested containers as needed;
a non-object intermediate is replaced by a fresh object. -/
def setIn : Value → List String → Value → Value
  | _, [], v => v
  | .obj fields, k :: rest, v =>
    match lookupField fields k with
    | some old => .obj (setField fields k (setIn old rest v))
    | none => .obj (fields ++ [(k, setIn (.obj []) rest v)])
  | _, k :: rest, v => .obj [(k, setIn (.obj []) rest v)]

/-- Modelled from the spec (section 4.5): iterates the Plan entries in
order over one source record, executing each action and assigning its
result at the destination path of the entry; a failing user callable aborts
with its error. -/
def runPlan (coll : List Value) (record : Value) : List PlanEntry → Value → Except String Value
  | [], tgt => .ok tgt
  | pe :: rest, tgt =>
    match executeAction pe.action record coll tgt with
    | .error e => .error e
    | .ok v => runPlan coll record rest (setIn tgt pe.dest v)

/-- Modelled from the spec (section 4.5): transforms one source record with
an already built plan, starting from a freshly allocated empty target; the
source collection passed to user callables is the singleton of the record,
matching the single-record call of the public contract. -/
def transformOne (plan : List PlanEntry) (record : Value) : Except String Value :=
  runPlan [record] record plan (.obj [])

/-- Modelled from the spec (sections 4.5 and 7): transforms a collection
element by element, independently, with fail-fast propagation of the first
error. -/
def transformAll (plan : List PlanEntry) : List Value → Except String (List Value)
  | [] => .ok []
  | x :: xs =>
    match transformOne plan x with
    | .error e => .error e
    | .ok y =>
      match transformAll plan xs with
      | .error e => .error e
      | .ok ys => .ok (y :: ys)

/-- Modelled from the spec (section 4.5, dispatch rule): an ordered sequence
is treated as a batch and mapped element by element; any other value is
treated as a single record. -/
def applyPlan (plan : List PlanEntry) : Value → Except String Value
  | .arr xs => (transformAll plan xs).map (fun ys => .arr ys)
  | record => transformOne plan record

/-- Modelled from the spec (sections 4.5 and 6, public contract): builds the
plan for the schema, then dispatches on the second argument as a single
record or a batch. -/
def transform (schema : SchemaM) (data : Value) : Except String Value :=
  match buildPlan schema with
  | .error e => .error e
  | .ok plan => applyPlan plan data

/-- Tests whether a schema contains, at any nesting depth, an entry whose
declared shape matches none of the five recognized action forms. -/
def containsMalformed : SchemaM → Bool
  | [] => false
  | (_, d) :: rest =>
    match d with
    | .nested es => containsMalformed es || containsMalformed rest
    | .other _ => true
    | _ => containsMalformed rest

mutual

/-- Tests whether a declared action contributes at least one plan entry
when flattened: terminal actions always do, a nested sub-schema does when
at least one of its own entries does. -/
def productiveDecl : Decl → Bool
  | .nested es => productiveList es
  | .other _ => false
  | _ => true

/-- Tests whether some entry of a schema contributes a plan entry. -/
def productiveList : SchemaM → Bool
  | [] => false
  | (_, d) :: rest => productiveDecl d || productiveList rest

end

/-- Tests whether every entry of a schema contributes at least one plan
entry when flattened. -/
def allProductive : SchemaM → Bool
  | [] => true
  | (_, d) :: rest => productiveDecl d && allProductive rest

/-- Tests whether a declared action is one of the four terminal forms. -/
def terminalDecl : Decl → Bool
  | .str _ => true
  | .strList _ => true
  | .callable _ => true
  | .selector _ _ => true
  | _ => false

/-- Top-level keys of an object value, in order; other values have none. -/
def topKeys : Value → List String
  | .obj fields => fields.map (fun kv => kv.1)
  | _ => []

/-- Head segment of the destination path of a plan entry. -/
def destHead (pe : PlanEntry) : String :=
  pe.dest.headD ("")

/-- Inserts a key at the end of a key list unless it is already present,
the key-set evolution of one target assignment. -/
def insertKey (ks : List String) (k : String) : List String :=
  if k ∈ ks then ks else ks ++ [k]

/-- Folds insertKey over a list of keys. -/
def insertKeys (ks : List String) : List String → List String
  | [] => ks
  | k :: rest => insertKeys (insertKey ks k) rest

/-- Modelled from the spec (sections 3 and 4.3): a schema object handed to
the engine, carrying its object identity (sid) next to its contents; two
calls with the same sid model two calls with the very same mutable schema
object, possibly after a mutation of its contents. -/
structure SchemaObj : Type where
  sid : Nat
  entries : SchemaM

/-- Modelled from the spec (sections 3, 4.3 and 9): the engine state, an
identity-keyed plan cache plus a counter of how many times buildPlan ran. -/
structure Engine : Type where
  cache : List (Nat × List PlanEntry)
  builds : Nat

/-- Looks up the cached plan for a schema identity. -/
def cacheLookup : List (Nat × List PlanEntry) → Nat → Option (List PlanEntry)
  | [], _ => none
  | (i, p) :: rest, sid => if i = sid then some p else cacheLookup rest sid

/-- Modelled from the spec (section 4.3, caching invariant): returns the
cached plan for the schema identity when present; otherwise builds the
plan from the schema contents, stores it under the identity and counts the
build. -/
def getPlan (e : Engine) (s : SchemaObj) : Except String (List PlanEntry × Engine) :=
  match cacheLookup e.cache s.sid with
  | some plan => .ok (plan, e)
  | none =>
    match buildPlan s.entries with
    | .error err => .error err
    | .ok plan => .ok (plan, ⟨(s.sid, plan) :: e.cache, e.builds + 1⟩)

/-- Modelled from the spec (sections 4.3 and 4.5): the engine-level call,
reusing the identity-keyed plan cache across calls. -/
def engineTransform (e : Engine) (s : SchemaObj) (data : Value) : Except String (Value × Engine) :=
  match getPlan e s with
  | .error err => .error err
  | .ok (plan, e1) =>
    match applyPlan plan data with
    | .error err => .error err
    | .ok r => .ok (r, e1)

end Morphism

namespace Morphism

theorem walk_eq_chain (segs : List String) : ∀ v : Value, walk v segs = (chain v segs).getD Value.undefined := by
  induction segs with
  | nil => intro v; simp [walk, chain]
  | cons seg rest ih =>
    intro v
    cases h : getStep v seg with
    | none => simp [walk, chain, h]
    | some w => simp [walk, chain, h, ih]

/-- C2: path resolution splits the path on the dot character and walks the
record segment by segment; when the full segment chain exists it returns
the exact leaf value, and as soon as a step fails (missing segment or
non-indexable container) it returns undefined; being a total function, it
never raises. -/
theorem c2_resolve_follows_chain (s : Value) (p : String) :
    resolve s p = (chain s (splitPath p)).getD Value.undefined := by
  simp [resolve, walk_eq_chain]

/-- C4: a nested sub-schema at a key is flattened by prepending that key
to the destination paths of its recursively built plan entries, splicing
them in place, so each flattened destination path is mapped to exactly one
terminal action, and the engine rebuilds the nested object in the target;
concretely, the schema with the nested entry out.inner pointing at the
source key a maps the record with a equal to five onto the nested target
object. -/
theorem c4_nested_flattening :
    (∀ (k : String) (es rest : SchemaM),
      buildPlan ((k, Decl.nested es) :: rest) =
        Except.bind (buildPlan es) (fun sub =>
          (buildPlan rest).map (fun tail =>
            (sub.map (fun pe => (⟨k :: pe.dest, pe.action⟩ : PlanEntry))) ++ tail)))
    ∧ buildPlan [("out", Decl.nested [("inner", Decl.str ("a"))])] =
      Except.ok [⟨["out", "inner"], TerminalAction.path ("a")⟩]
    ∧ transform [("out", Decl.nested [("inner", Decl.str ("a"))])]
        (Value.obj [("a", Value.num 5)]) =
      Except.ok (Value.obj [("out", Value.obj [("inner", Value.num 5)])]) := by
  have hplan : buildPlan [("out", Decl.nested [("inner", Decl.str ("a"))])] =
      Except.ok [⟨["out", "inner"], TerminalAction.path ("a")⟩] := by
    simp [buildPlan, Except.map]
  refine ⟨?_, hplan, ?_⟩
  · intro k es rest
    cases hes : buildPlan es with
    | error e => simp [buildPlan, hes, Except.bind]
    | ok sub => cases hr : buildPlan rest <;> simp [buildPlan, hes, hr, Except.bind, Except.map]
  · rw [transform.eq_def, hplan]
    rfl

/-- C5: a selector action first resolves its path member with Path or
Aggregator semantics, then invokes its fn member with the resolved value,
the source record, the source collection and the in-progress target,
returning the result of fn; concretely the barqux example of the
specification holds. -/
theorem c5_selector :
    (∀ (sp : SelPath) (f : SelFn) (s : Value) (coll : List Value) (tgt : Value),
      executeAction (TerminalAction.selector sp f) s coll tgt = f (resolveSel sp s) s coll tgt) ∧
    transform
        [("barqux", Decl.selector (SelPath.single ("foo.bar"))
          (fun v _ _ _ =>
            match v with
            | Value.str s => Except.ok (Value.str (s ++ "qux"))
            | _ => Except.ok Value.undefined))]
        (Value.obj [("foo", Value.obj [("bar", Value.str ("bar"))])]) =
      Except.ok (Value.obj [("barqux", Value.str ("barqux"))]) := by
  constructor
  · intro sp f s coll tgt; rfl
  · rw [transform.eq_def]
    have hplan : buildPlan
        [("barqux", Decl.selector (SelPath.single ("foo.bar"))
          (fun v _ _ _ =>
            match v with
            | Value.str s => Except.ok (Value.str (s ++ "qux"))
            | _ => Except.ok Value.undefined))] =
        Except.ok [⟨["barqux"], TerminalAction.selector (SelPath.single ("foo.bar"))
          (fun v _ _ _ =>
            match v with
            | Value.str s => Except.ok (Value.str (s ++ "qux"))
            | _ => Except.ok Value.undefined)⟩] := by
      simp [buildPlan, Except.map]
    rw [hplan]
    rfl

end Morphism

namespace Morphism

theorem lookupField_none_iff (k : String) : ∀ fs : List (String × Value),
    lookupField fs k = none ↔ k ∉ fs.map Prod.fst := by
  intro fs
  induction fs with
  | nil => simp [lookupField]
  | cons kv rest ih =>
    by_cases h : kv.1 = k
    · simp [lookupField, h]
    · simp [lookupField, h, ih, Ne.symm h]

theorem setField_keys (k : String) (v : Value) : ∀ fs : List (String × Value),
    (setField fs k v).map Prod.fst =
      if k ∈ fs.map Prod.fst then fs.map Prod.fst else fs.map Prod.fst ++ [k] := by
  intro fs
  induction fs with
  | nil => simp [setField]
  | cons kv rest ih =>
    by_cases h : kv.1 = k
    · simp [setField, h]
    · have h2 : ¬ k = kv.1 := fun e => h e.symm
      by_cases hm : k ∈ rest.map Prod.fst <;> simp [setField, h, ih, hm, h2]

theorem lookupField_setField_self (k : String) (v : Value) : ∀ fs : List (String × Value),
    lookupField (setField fs k v) k = some v := by
  intro fs
  induction fs with
  | nil => simp [setField, lookupField]
  | cons kv rest ih =>
    by_cases h : kv.1 = k
    · simp [setField, h, lookupField]
    · simp [setField, h, lookupField, ih]

theorem lookupField_setField_ne (k q : String) (v : Value) (hne : q ≠ k) :
    ∀ fs : List (String × Value), lookupField (setField fs k v) q = lookupField fs q := by
  intro fs
  induction fs with
  | nil =>
    have h2 : ¬ k = q := fun e => hne e.symm
    simp [setField, lookupField, h2]
  | cons kv rest ih =>
    by_cases h : kv.1 = k
    · have h3 : ¬ k = q := fun e => hne e.symm
      simp [setField, h, lookupField, h3]
    · simp [setField, h, lookupField, ih]

theorem aggregate_fold (s : Value) : ∀ (ps : List String) (fs : List (String × Value)),
    (ps.map lastSeg).Nodup →
    (∀ p ∈ ps, lastSeg p ∉ fs.map Prod.fst) →
    ((ps.foldl (fun fields p => setField fields (lastSeg p) (resolve s p)) fs).map Prod.fst
        = fs.map Prod.fst ++ ps.map lastSeg)
    ∧ (∀ q ∈ fs.map Prod.fst,
        lookupField (ps.foldl (fun fields p => setField fields (lastSeg p) (resolve s p)) fs) q
          = lookupField fs q)
    ∧ (∀ p ∈ ps,
        lookupField (ps.foldl (fun fields p => setField fields (lastSeg p) (resolve s p)) fs)
            (lastSeg p)
          = some (resolve s p)) := by
  intro ps
  induction ps with
  | nil => intro fs _ _; simp
  | cons p rest ih =>
    intro fs hnd hdisj
    have hpn : lastSeg p ∉ fs.map Prod.fst := hdisj p (by simp)
    have hkeys1 : (setField fs (lastSeg p) (resolve s p)).map Prod.fst
        = fs.map Prod.fst ++ [lastSeg p] := by
      rw [setField_keys]
      simp [hpn]
    have hnd1 : (rest.map lastSeg).Nodup := (List.nodup_cons.mp (by simpa using hnd)).2
    have hhd : lastSeg p ∉ rest.map lastSeg := (List.nodup_cons.mp (by simpa using hnd)).1
    have hdisj1 : ∀ q ∈ rest, lastSeg q ∉ (setField fs (lastSeg p) (resolve s p)).map Prod.fst := by
      intro q hq
      rw [hkeys1]
      simp only [List.mem_append, List.mem_singleton]
      rintro (hin | heq)
      · exact hdisj q (by simp [hq]) hin
      · apply hhd
        rw [← heq]
        exact List.mem_map.mpr ⟨q, hq, rfl⟩
    obtain ⟨ik, ipres, ival⟩ := ih (setField fs (lastSeg p) (resolve s p)) hnd1 hdisj1
    refine ⟨?_, ?_, ?_⟩
    · simp only [List.foldl_cons]
      rw [ik, hkeys1]
      simp
    · intro q hq
      simp only [List.foldl_cons]
      rw [ipres q (by rw [hkeys1]; exact List.mem_append_left _ hq)]
      exact lookupField_setField_ne _ _ _ (fun he => hpn (by rw [← he]; exact hq)) fs
    · intro q hq
      rcases List.mem_cons.mp hq with heq | hmem
      · subst heq
        simp only [List.foldl_cons]
        rw [ipres (lastSeg q) (by rw [hkeys1]; simp)]
        exact lookupField_setField_self _ _ fs
      · simp only [List.foldl_cons]
        exact ival q hmem

end Morphism

namespace Morphism

/-- C3 (amended): executing an aggregator action builds the result object
by assigning, in list order, for each listed path the key equal to the
final dot-separated segment of that path with the value resolved for that
path (undefined when the path is missing); when the final segments of the
listed paths are pairwise distinct, the result has exactly one key per
listed path, in order, and no key is skipped; the concrete example of the
specification holds. -/
theorem c3_aggregator_keys (ps : List String) (s : Value)
    (hnd : (ps.map lastSeg).Nodup) :
    topKeys (aggregate ps s) = ps.map lastSeg
    ∧ (∀ p ∈ ps, getStep (aggregate ps s) (lastSeg p) = some (resolve s p))
    ∧ transform [("x", Decl.strList ["a", "b.c"])]
        (Value.obj [("a", Value.num 1), ("b", Value.obj [("c", Value.num 2)])]) =
      Except.ok (Value.obj [("x", Value.obj [("a", Value.num 1), ("c", Value.num 2)])]) := by
  obtain ⟨hk, _, hv⟩ := aggregate_fold s ps [] hnd (by simp)
  refine ⟨?_, ?_, ?_⟩
  · simpa [aggregate, topKeys] using hk
  · intro p hp
    simpa [aggregate, getStep] using hv p hp
  · have hplan : buildPlan [("x", Decl.strList ["a", "b.c"])] =
        Except.ok [⟨["x"], TerminalAction.aggregator ["a", "b.c"]⟩] := by
      simp [buildPlan, Except.map]
    rw [transform.eq_def, hplan]
    rfl

/-- C3 witness: the aggregator contract instantiated at the specification
example, where the two final segments are distinct. -/
theorem c3_aggregator_keys_witness :
    (((["a", "b.c"] : List String).map lastSeg).Nodup)
    ∧ (topKeys (aggregate ["a", "b.c"]
        (Value.obj [("a", Value.num 1), ("b", Value.obj [("c", Value.num 2)])])) =
          (["a", "b.c"] : List String).map lastSeg
      ∧ (∀ p ∈ (["a", "b.c"] : List String),
          getStep (aggregate ["a", "b.c"]
              (Value.obj [("a", Value.num 1), ("b", Value.obj [("c", Value.num 2)])]))
              (lastSeg p) =
            some (resolve
              (Value.obj [("a", Value.num 1), ("b", Value.obj [("c", Value.num 2)])]) p))
      ∧ transform [("x", Decl.strList ["a", "b.c"])]
          (Value.obj [("a", Value.num 1), ("b", Value.obj [("c", Value.num 2)])]) =
        Except.ok (Value.obj [("x", Value.obj [("a", Value.num 1), ("c", Value.num 2)])])) :=
  ⟨by decide,
   c3_aggregator_keys ["a", "b.c"]
     (Value.obj [("a", Value.num 1), ("b", Value.obj [("c", Value.num 2)])]) (by decide)⟩

/-- C3 counterexample: with the two listed paths a and b.a, whose final
segments coincide, the later assignment overwrites the earlier key, so
the result does not have one key per listed path and the value for the
first path is lost. -/
theorem c3_aggregator_counterexample :
    ¬ (topKeys (aggregate ["a", "b.a"]
          (Value.obj [("a", Value.num 1), ("b", Value.obj [("a", Value.num 2)])])) =
        (["a", "b.a"] : List String).map lastSeg
      ∧ (∀ p ∈ (["a", "b.a"] : List String),
          getStep (aggregate ["a", "b.a"]
              (Value.obj [("a", Value.num 1), ("b", Value.obj [("a", Value.num 2)])]))
              (lastSeg p) =
            some (resolve
              (Value.obj [("a", Value.num 1), ("b", Value.obj [("a", Value.num 2)])]) p))) := by
  rintro ⟨h1, _⟩
  exact absurd h1 (by decide)

end Morphism

namespace Morphism

theorem transformAll_ok (plan : List PlanEntry) : ∀ (xs ys : List Value),
    transformAll plan xs = Except.ok ys →
    ys.length = xs.length
    ∧ ∀ (i : Nat) (h1 : i < xs.length) (h2 : i < ys.length),
        transformOne plan (xs.get ⟨i, h1⟩) = Except.ok (ys.get ⟨i, h2⟩) := by
  intro xs
  induction xs with
  | nil =>
    intro ys h
    simp [transformAll] at h
    subst h
    exact ⟨rfl, fun i h1 _ => absurd h1 (by simp)⟩
  | cons x rest ih =>
    intro ys h
    cases h1 : transformOne plan x with
    | error e => simp [transformAll, h1] at h
    | ok y =>
      cases h2 : transformAll plan rest with
      | error e => simp [transformAll, h1, h2] at h
      | ok ys0 =>
        simp [transformAll, h1, h2] at h
        subst h
        obtain ⟨hlen, hidx⟩ := ih ys0 h2
        refine ⟨by simp [hlen], ?_⟩
        intro i hi1 hi2
        cases i with
        | zero => simpa using h1
        | succ n =>
          have hn1 : n < rest.length := by simpa using hi1
          have hn2 : n < ys0.length := by simpa using hi2
          simpa using hidx n hn1 hn2

theorem applyPlan_single (plan : List PlanEntry) (v : Value) (hv : ∀ l, v ≠ Value.arr l) :
    applyPlan plan v = transformOne plan v := by
  cases v with
  | arr l => exact absurd rfl (hv l)
  | undefined => rfl
  | boolean b => rfl
  | num n => rfl
  | str s => rfl
  | obj fs => rfl

/-- C1: transforming an ordered collection of source records yields an
ordered sequence of the same length in which the element at each position
equals the single-record transformation of the source record at that
position, each element transformed independently; with the same schema, an
empty input collection yields an empty output sequence. -/
theorem c1_batch_mapping (schema : SchemaM) (xs ys : List Value)
    (hrec : ∀ x ∈ xs, ∀ l, x ≠ Value.arr l)
    (h : transform schema (Value.arr xs) = Except.ok (Value.arr ys)) :
    ys.length = xs.length
    ∧ (∀ (i : Nat) (h1 : i < xs.length) (h2 : i < ys.length),
        transform schema (xs.get ⟨i, h1⟩) = Except.ok (ys.get ⟨i, h2⟩))
    ∧ transform schema (Value.arr []) = Except.ok (Value.arr []) := by
  cases hb : buildPlan schema with
  | error e =>
    rw [transform.eq_def, hb] at h
    exact absurd h (by simp)
  | ok plan =>
    rw [transform.eq_def, hb] at h
    cases ht : transformAll plan xs with
    | error e => simp [applyPlan, ht, Except.map] at h
    | ok ys0 =>
      have hys : ys0 = ys := by
        simp [applyPlan, ht, Except.map] at h
        exact h
      subst hys
      obtain ⟨hlen, hidx⟩ := transformAll_ok plan xs ys0 ht
      refine ⟨hlen, ?_, ?_⟩
      · intro i h1 h2
        rw [transform.eq_def, hb]
        show applyPlan plan (xs.get ⟨i, h1⟩) = Except.ok (ys0.get ⟨i, h2⟩)
        rw [applyPlan_single plan _ (fun l => hrec _ (xs.get_mem i h1) l)]
        exact hidx i h1 h2
      · rw [transform.eq_def, hb]
        show applyPlan plan (Value.arr []) = Except.ok (Value.arr [])
        simp [applyPlan, transformAll, Except.map]

/-- C1 witness: a two-record batch with a single path-action schema. -/
theorem c1_batch_mapping_witness :
    ((∀ x ∈ [Value.obj [("a", Value.num 1)], Value.obj [("a", Value.num 2)]],
        ∀ l, x ≠ Value.arr l)
      ∧ transform [("b", Decl.str ("a"))]
          (Value.arr [Value.obj [("a", Value.num 1)], Value.obj [("a", Value.num 2)]]) =
        Except.ok (Value.arr [Value.obj [("b", Value.num 1)], Value.obj [("b", Value.num 2)]]))
    ∧ (([Value.obj [("b", Value.num 1)], Value.obj [("b", Value.num 2)]] : List Value).length =
        ([Value.obj [("a", Value.num 1)], Value.obj [("a", Value.num 2)]] : List Value).length
      ∧ (∀ (i : Nat)
          (h1 : i < ([Value.obj [("a", Value.num 1)], Value.obj [("a", Value.num 2)]] : List Value).length)
          (h2 : i < ([Value.obj [("b", Value.num 1)], Value.obj [("b", Value.num 2)]] : List Value).length),
          transform [("b", Decl.str ("a"))]
              (([Value.obj [("a", Value.num 1)], Value.obj [("a", Value.num 2)]] : List Value).get ⟨i, h1⟩) =
            Except.ok (([Value.obj [("b", Value.num 1)], Value.obj [("b", Value.num 2)]] : List Value).get ⟨i, h2⟩))
      ∧ transform [("b", Decl.str ("a"))] (Value.arr []) = Except.ok (Value.arr [])) := by
  have hrec : ∀ x ∈ [Value.obj [("a", Value.num 1)], Value.obj [("a", Value.num 2)]],
      ∀ l, x ≠ Value.arr l := by
    intro x hx l
    rcases List.mem_cons.mp hx with h | h
    · subst h; intro hh; cases hh
    · rcases List.mem_cons.mp h with h2 | h2
      · subst h2; intro hh; cases hh
      · cases h2
  have hplan : buildPlan [("b", Decl.str ("a"))] =
      Except.ok [⟨["b"], TerminalAction.path ("a")⟩] := by
    simp [buildPlan, Except.map]
  have h : transform [("b", Decl.str ("a"))]
      (Value.arr [Value.obj [("a", Value.num 1)], Value.obj [("a", Value.num 2)]]) =
      Except.ok (Value.arr [Value.obj [("b", Value.num 1)], Value.obj [("b", Value.num 2)]]) := by
    rw [transform.eq_def, hplan]
    rfl
  exact ⟨⟨hrec, h⟩, c1_batch_mapping [("b", Decl.str ("a"))] _ _ hrec h⟩

end Morphism

namespace Morphism

theorem buildPlan_malformed_classification : ∀ es : SchemaM,
    (containsMalformed es = true → buildPlan es = Except.error invalidSchemaAction)
    ∧ (containsMalformed es = false → ∃ plan, buildPlan es = Except.ok plan) := by
  intro es
  induction es using buildPlan.induct with
  | case1 =>
    refine ⟨fun h => ?_, fun _ => ⟨[], by simp [buildPlan]⟩⟩
    simp [containsMalformed] at h
  | case2 k rest p ih =>
    refine ⟨fun h => ?_, fun h => ?_⟩
    · have hr := ih.1 (by simpa [containsMalformed] using h)
      simp [buildPlan, hr, Except.map]
    · obtain ⟨plan, hp⟩ := ih.2 (by simpa [containsMalformed] using h)
      exact ⟨⟨[k], TerminalAction.path p⟩ :: plan, by simp [buildPlan, hp, Except.map]⟩
  | case3 k rest ps ih =>
    refine ⟨fun h => ?_, fun h => ?_⟩
    · have hr := ih.1 (by simpa [containsMalformed] using h)
      simp [buildPlan, hr, Except.map]
    · obtain ⟨plan, hp⟩ := ih.2 (by simpa [containsMalformed] using h)
      exact ⟨⟨[k], TerminalAction.aggregator ps⟩ :: plan, by simp [buildPlan, hp, Except.map]⟩
  | case4 k rest f ih =>
    refine ⟨fun h => ?_, fun h => ?_⟩
    · have hr := ih.1 (by simpa [containsMalformed] using h)
      simp [buildPlan, hr, Except.map]
    · obtain ⟨plan, hp⟩ := ih.2 (by simpa [containsMalformed] using h)
      exact ⟨⟨[k], TerminalAction.func f⟩ :: plan, by simp [buildPlan, hp, Except.map]⟩
  | case5 k rest sp f ih =>
    refine ⟨fun h => ?_, fun h => ?_⟩
    · have hr := ih.1 (by simpa [containsMalformed] using h)
      simp [buildPlan, hr, Except.map]
    · obtain ⟨plan, hp⟩ := ih.2 (by simpa [containsMalformed] using h)
      exact ⟨⟨[k], TerminalAction.selector sp f⟩ :: plan, by simp [buildPlan, hp, Except.map]⟩
  | case6 k rest es0 e herr ih =>
    have hes : containsMalformed es0 = true := by
      cases hc : containsMalformed es0 with
      | true => rfl
      | false =>
        obtain ⟨plan, hp⟩ := ih.2 hc
        rw [herr] at hp
        cases hp
    have herr2 : buildPlan es0 = Except.error invalidSchemaAction := ih.1 hes
    refine ⟨fun _ => ?_, fun h => ?_⟩
    · simp [buildPlan, herr2]
    · simp [containsMalformed, hes] at h
  | case7 k rest es0 sub hsub ih ihr =>
    refine ⟨fun h => ?_, fun h => ?_⟩
    · have hes : containsMalformed es0 = false := by
        cases hc : containsMalformed es0 with
        | false => rfl
        | true =>
          have := ih.1 hc
          rw [hsub] at this
          cases this
      have hrest : containsMalformed rest = true := by
        simp [containsMalformed, hes] at h
        exact h
      have hr := ihr.1 hrest
      simp [buildPlan, hsub, hr, Except.map]
    · have hrest : containsMalformed rest = false := by
        simp [containsMalformed] at h
        exact h.2
      obtain ⟨plan, hp⟩ := ihr.2 hrest
      exact ⟨(sub.map (fun pe => ⟨k :: pe.dest, pe.action⟩)) ++ plan,
        by simp [buildPlan, hsub, hp, Except.map]⟩
  | case8 k rest v =>
    refine ⟨fun _ => by simp [buildPlan], fun h => ?_⟩
    simp [containsMalformed] at h

/-- C7: a schema containing, at any nesting depth, an entry whose declared
shape matches none of the five recognized action forms makes plan building
fail fast with the InvalidSchemaAction condition, so every transformation
with that schema signals the condition before any record is transformed,
rather than silently producing undefined per record. -/
theorem c7_invalid_schema_fail_fast (schema : SchemaM)
    (h : containsMalformed schema = true) :
    buildPlan schema = Except.error invalidSchemaAction
    ∧ ∀ data, transform schema data = Except.error invalidSchemaAction := by
  have hb := (buildPlan_malformed_classification schema).1 h
  exact ⟨hb, fun data => by rw [transform.eq_def, hb]⟩

/-- C7 witness: a schema declaring a bare number for a destination field is
rejected at plan-build time and every transform call with it fails with
the InvalidSchemaAction condition. -/
theorem c7_invalid_schema_fail_fast_witness :
    containsMalformed [("good", Decl.str ("a")), ("bad", Decl.other (Value.num 3))] = true
    ∧ (buildPlan [("good", Decl.str ("a")), ("bad", Decl.other (Value.num 3))] =
        Except.error invalidSchemaAction
      ∧ ∀ data, transform [("good", Decl.str ("a")), ("bad", Decl.other (Value.num 3))] data =
          Except.error invalidSchemaAction) :=
  ⟨by simp [containsMalformed],
   c7_invalid_schema_fail_fast _ (by simp [containsMalformed])⟩

theorem runPlan_append (coll : List Value) (s : Value) : ∀ (p1 p2 : List PlanEntry) (tgt : Value),
    runPlan coll s (p1 ++ p2) tgt =
      match runPlan coll s p1 tgt with
      | .error e => .error e
      | .ok t1 => runPlan coll s p2 t1 := by
  intro p1
  induction p1 with
  | nil => intro p2 tgt; simp [runPlan]
  | cons pe rest ih =>
    intro p2 tgt
    cases h : executeAction pe.action s coll tgt with
    | error e => simp [runPlan, h]
    | ok v => simp [runPlan, h, ih]

/-- C8: a user-supplied callable that raises on a given record makes the
whole transformation raise that same condition, unmodified: this holds for
a function action and for the fn member of a selector action, whenever the
plan entries before it execute without error. -/
theorem c8_user_error_propagation :
    (∀ (schema : SchemaM) (p1 p2 : List PlanEntry) (dst : List String) (f : Fn)
        (s tgt1 : Value) (e : String),
      (∀ l, s ≠ Value.arr l) →
      buildPlan schema = Except.ok (p1 ++ ⟨dst, TerminalAction.func f⟩ :: p2) →
      runPlan [s] s p1 (Value.obj []) = Except.ok tgt1 →
      f s [s] tgt1 = Except.error e →
      transform schema s = Except.error e)
    ∧ (∀ (schema : SchemaM) (p1 p2 : List PlanEntry) (dst : List String) (sp : SelPath)
        (g : SelFn) (s tgt1 : Value) (e : String),
      (∀ l, s ≠ Value.arr l) →
      buildPlan schema = Except.ok (p1 ++ ⟨dst, TerminalAction.selector sp g⟩ :: p2) →
      runPlan [s] s p1 (Value.obj []) = Except.ok tgt1 →
      g (resolveSel sp s) s [s] tgt1 = Except.error e →
      transform schema s = Except.error e) := by
  constructor
  · intro schema p1 p2 dst f s tgt1 e hs hb h1 hf
    rw [transform.eq_def, hb]
    show applyPlan (p1 ++ ⟨dst, TerminalAction.func f⟩ :: p2) s = Except.error e
    rw [applyPlan_single _ _ hs]
    show runPlan [s] s (p1 ++ ⟨dst, TerminalAction.func f⟩ :: p2) (Value.obj []) = Except.error e
    rw [runPlan_append, h1]
    simp [runPlan, executeAction, hf]
  · intro schema p1 p2 dst sp g s tgt1 e hs hb h1 hg
    rw [transform.eq_def, hb]
    show applyPlan (p1 ++ ⟨dst, TerminalAction.selector sp g⟩ :: p2) s = Except.error e
    rw [applyPlan_single _ _ hs]
    show runPlan [s] s (p1 ++ ⟨dst, TerminalAction.selector sp g⟩ :: p2) (Value.obj []) =
      Except.error e
    rw [runPlan_append, h1]
    simp [runPlan, executeAction, hg]

/-- C8 witness: a function action that always raises the condition boom
makes the transformation of the empty record fail with boom, unwrapped. -/
theorem c8_user_error_propagation_witness :
    buildPlan [("bar", Decl.callable (fun _ _ _ => Except.error ("boom")))] =
      Except.ok ([] ++ (⟨["bar"], TerminalAction.func (fun _ _ _ => Except.error ("boom"))⟩ :
        PlanEntry) :: [])
    ∧ transform [("bar", Decl.callable (fun _ _ _ => Except.error ("boom")))] (Value.obj []) =
        Except.error ("boom") := by
  have hb : buildPlan [("bar", Decl.callable (fun _ _ _ => Except.error ("boom")))] =
      Except.ok ([] ++ (⟨["bar"], TerminalAction.func (fun _ _ _ => Except.error ("boom"))⟩ :
        PlanEntry) :: []) := by
    simp [buildPlan, Except.map]
  refine ⟨hb, ?_⟩
  exact c8_user_error_propagation.1
    [("bar", Decl.callable (fun _ _ _ => Except.error ("boom")))] [] [] ["bar"]
    (fun _ _ _ => Except.error ("boom")) (Value.obj []) (Value.obj []) ("boom")
    (fun l h => by cases h) hb (by simp [runPlan]) rfl

end Morphism

namespace Morphism

theorem getPlan_caches (e0 : Engine) (s : SchemaObj) (plan : List PlanEntry) (e1 : Engine)
    (h : getPlan e0 s = Except.ok (plan, e1)) :
    cacheLookup e1.cache s.sid = some plan := by
  rw [getPlan.eq_def] at h
  cases hc : cacheLookup e0.cache s.sid with
  | some p =>
    rw [hc] at h
    simp at h
    obtain ⟨hp, he⟩ := h
    subst hp
    subst he
    exact hc
  | none =>
    rw [hc] at h
    cases hb : buildPlan s.entries with
    | error err => rw [hb] at h; cases h
    | ok p =>
      rw [hb] at h
      simp at h
      obtain ⟨hp, he⟩ := h
      subst hp
      subst he
      simp [cacheLookup]

/-- C6: once a transformation with a schema object has succeeded, the plan
for that schema identity is cached in the engine, and every later call
with the same schema identity — even with mutated schema contents — is
served from the cached plan: it behaves exactly as a call with the
original schema object, performs no further plan build and leaves the
engine state unchanged, its output derived from the cached plan alone. -/
theorem c6_plan_cache_identity (e0 e1 : Engine) (s s2 : SchemaObj) (d r : Value)
    (hid : s2.sid = s.sid)
    (h : engineTransform e0 s d = Except.ok (r, e1)) :
    (∀ d2, engineTransform e1 s2 d2 = engineTransform e1 s d2)
    ∧ (∀ d2 r2 e2, engineTransform e1 s2 d2 = Except.ok (r2, e2) → e2 = e1)
    ∧ (∃ plan, cacheLookup e1.cache s.sid = some plan
        ∧ ∀ d2, engineTransform e1 s2 d2 = (applyPlan plan d2).map (fun v => (v, e1))) := by
  have hcached : ∃ plan, cacheLookup e1.cache s.sid = some plan := by
    rw [engineTransform.eq_def] at h
    cases hg : getPlan e0 s with
    | error err => rw [hg] at h; cases h
    | ok pr =>
      obtain ⟨plan0, eng0⟩ := pr
      rw [hg] at h
      cases ha : applyPlan plan0 d with
      | error err => simp [ha] at h
      | ok v =>
        simp [ha] at h
        obtain ⟨-, he⟩ := h
        exact ⟨plan0, getPlan_caches e0 s plan0 e1 (by rw [hg, he])⟩
  obtain ⟨plan, hcl⟩ := hcached
  have hget2 : getPlan e1 s2 = Except.ok (plan, e1) := by
    rw [getPlan.eq_def, hid, hcl]
  have hget1 : getPlan e1 s = Except.ok (plan, e1) := by
    rw [getPlan.eq_def, hcl]
  have hrun : ∀ d2, engineTransform e1 s2 d2 = (applyPlan plan d2).map (fun v => (v, e1)) := by
    intro d2
    rw [engineTransform.eq_def, hget2]
    cases ha : applyPlan plan d2 <;> simp [ha, Except.map]
  refine ⟨?_, ?_, plan, hcl, hrun⟩
  · intro d2
    rw [engineTransform.eq_def, hget2, engineTransform.eq_def, hget1]
  · intro d2 r2 e2 h2
    rw [hrun d2] at h2
    cases ha : applyPlan plan d2 with
    | error err => rw [ha] at h2; cases h2
    | ok v =>
      rw [ha] at h2
      simp [Except.map] at h2
      exact h2.2.symm

/-- C6 witness: after one successful call, a call with the same schema
identity but mutated contents ignores the mutation: it equals the call
with the original schema object, leaves the engine unchanged and is served
from the cached plan. -/
theorem c6_plan_cache_identity_witness :
    ((⟨0, [("b", Decl.str ("zzz"))]⟩ : SchemaObj).sid = (⟨0, [("b", Decl.str ("a"))]⟩ : SchemaObj).sid
      ∧ engineTransform ⟨[], 0⟩ ⟨0, [("b", Decl.str ("a"))]⟩ (Value.obj [("a", Value.num 1)]) =
          Except.ok (Value.obj [("b", Value.num 1)],
            ⟨[(0, [⟨["b"], TerminalAction.path ("a")⟩])], 1⟩))
    ∧ ((∀ d2, engineTransform ⟨[(0, [⟨["b"], TerminalAction.path ("a")⟩])], 1⟩
          ⟨0, [("b", Decl.str ("zzz"))]⟩ d2 =
        engineTransform ⟨[(0, [⟨["b"], TerminalAction.path ("a")⟩])], 1⟩
          ⟨0, [("b", Decl.str ("a"))]⟩ d2)
      ∧ (∀ d2 r2 e2, engineTransform ⟨[(0, [⟨["b"], TerminalAction.path ("a")⟩])], 1⟩
            ⟨0, [("b", Decl.str ("zzz"))]⟩ d2 = Except.ok (r2, e2) →
          e2 = ⟨[(0, [⟨["b"], TerminalAction.path ("a")⟩])], 1⟩)
      ∧ (∃ plan, cacheLookup (⟨[(0, [⟨["b"], TerminalAction.path ("a")⟩])], 1⟩ : Engine).cache
            (⟨0, [("b", Decl.str ("a"))]⟩ : SchemaObj).sid = some plan
          ∧ ∀ d2, engineTransform ⟨[(0, [⟨["b"], TerminalAction.path ("a")⟩])], 1⟩
                ⟨0, [("b", Decl.str ("zzz"))]⟩ d2 =
              (applyPlan plan d2).map
                (fun v => (v, (⟨[(0, [⟨["b"], TerminalAction.path ("a")⟩])], 1⟩ : Engine))))) := by
  have hb : buildPlan [("b", Decl.str ("a"))] =
      Except.ok [⟨["b"], TerminalAction.path ("a")⟩] := by
    simp [buildPlan, Except.map]
  have h : engineTransform ⟨[], 0⟩ ⟨0, [("b", Decl.str ("a"))]⟩ (Value.obj [("a", Value.num 1)]) =
      Except.ok (Value.obj [("b", Value.num 1)],
        ⟨[(0, [⟨["b"], TerminalAction.path ("a")⟩])], 1⟩) := by
    rw [engineTransform.eq_def, getPlan.eq_def, hb]
    rfl
  exact ⟨⟨rfl, h⟩, c6_plan_cache_identity ⟨[], 0⟩ _ _ _ _ _ rfl h⟩

end Morphism

namespace Morphism

theorem lookupField_some_mem (fs : List (String × Value)) (k : String) (v : Value)
    (h : lookupField fs k = some v) : k ∈ fs.map Prod.fst := by
  by_cases hm : k ∈ fs.map Prod.fst
  · exact hm
  · rw [(lookupField_none_iff k fs).mpr hm] at h
    cases h

theorem setIn_obj_keys (fs : List (String × Value)) (k : String) (rest : List String) (v : Value) :
    ∃ gs, setIn (Value.obj fs) (k :: rest) v = Value.obj gs
      ∧ gs.map Prod.fst = insertKey (fs.map Prod.fst) k := by
  cases hl : lookupField fs k with
  | some old =>
    refine ⟨setField fs k (setIn old rest v), by simp [setIn, hl], ?_⟩
    rw [setField_keys]
    simp [insertKey, lookupField_some_mem fs k old hl]
  | none =>
    refine ⟨fs ++ [(k, setIn (Value.obj []) rest v)], by simp [setIn, hl], ?_⟩
    have hm : k ∉ fs.map Prod.fst := (lookupField_none_iff k fs).mp hl
    simp [insertKey, hm]

theorem runPlan_keys (coll : List Value) (s : Value) : ∀ (plan : List PlanEntry)
    (fs : List (String × Value)) (t : Value),
    (∀ pe ∈ plan, pe.dest ≠ []) →
    runPlan coll s plan (Value.obj fs) = Except.ok t →
    ∃ gs, t = Value.obj gs
      ∧ gs.map Prod.fst = insertKeys (fs.map Prod.fst) (plan.map destHead) := by
  intro plan
  induction plan with
  | nil =>
    intro fs t _ h
    simp [runPlan] at h
    exact ⟨fs, h.symm, by simp [insertKeys]⟩
  | cons pe rest ih =>
    intro fs t hne h
    cases hx : executeAction pe.action s coll (Value.obj fs) with
    | error e => simp [runPlan, hx] at h
    | ok v =>
      simp only [runPlan, hx] at h
      cases hd : pe.dest with
      | nil => exact absurd hd (hne pe (by simp))
      | cons k ds =>
        rw [hd] at h
        obtain ⟨gs1, hg1, hk1⟩ := setIn_obj_keys fs k ds v
        rw [hg1] at h
        obtain ⟨gs, hgs, hks⟩ := ih gs1 t (fun q hq => hne q (by simp [hq])) h
        refine ⟨gs, hgs, ?_⟩
        rw [hks, hk1]
        have : destHead pe = k := by simp [destHead, hd]
        simp [this, insertKeys]

theorem buildPlan_dest_nonempty : ∀ es : SchemaM, ∀ plan,
    buildPlan es = Except.ok plan → ∀ pe ∈ plan, pe.dest ≠ [] := by
  intro es
  induction es using buildPlan.induct with
  | case1 =>
    intro plan h
    simp [buildPlan] at h
    subst h
    intro pe hpe
    cases hpe
  | case2 k rest p ih =>
    intro plan h
    cases hr : buildPlan rest with
    | error e => simp [buildPlan, hr, Except.map] at h
    | ok tail =>
      simp [buildPlan, hr, Except.map] at h
      subst h
      intro pe hpe
      rcases List.mem_cons.mp hpe with he | hm
      · subst he; simp
      · exact ih tail hr pe hm
  | case3 k rest ps ih =>
    intro plan h
    cases hr : buildPlan rest with
    | error e => simp [buildPlan, hr, Except.map] at h
    | ok tail =>
      simp [buildPlan, hr, Except.map] at h
      subst h
      intro pe hpe
      rcases List.mem_cons.mp hpe with he | hm
      · subst he; simp
      · exact ih tail hr pe hm
  | case4 k rest f ih =>
    intro plan h
    cases hr : buildPlan rest with
    | error e => simp [buildPlan, hr, Except.map] at h
    | ok tail =>
      simp [buildPlan, hr, Except.map] at h
      subst h
      intro pe hpe
      rcases List.mem_cons.mp hpe with he | hm
      · subst he; simp
      · exact ih tail hr pe hm
  | case5 k rest sp f ih =>
    intro plan h
    cases hr : buildPlan rest with
    | error e => simp [buildPlan, hr, Except.map] at h
    | ok tail =>
      simp [buildPlan, hr, Except.map] at h
      subst h
      intro pe hpe
      rcases List.mem_cons.mp hpe with he | hm
      · subst he; simp
      · exact ih tail hr pe hm
  | case6 k rest es0 e herr ih =>
    intro plan h
    simp [buildPlan, herr] at h
  | case7 k rest es0 sub hsub ih ihr =>
    intro plan h
    cases hr : buildPlan rest with
    | error e => simp [buildPlan, hsub, hr, Except.map] at h
    | ok tail =>
      simp [buildPlan, hsub, hr, Except.map] at h
      subst h
      intro pe hpe
      rcases List.mem_append.mp hpe with hm | hm
      · obtain ⟨pe0, _, hpe0⟩ := List.mem_map.mp hm
        rw [← hpe0]
        simp
      · exact ihr tail hr pe hm
  | case8 k rest v =>
    intro plan h
    simp [buildPlan] at h

theorem buildPlan_productive_ne_nil : ∀ es : SchemaM, ∀ plan,
    buildPlan es = Except.ok plan → productiveList es = true → plan ≠ [] := by
  intro es
  induction es using buildPlan.induct with
  | case1 =>
    intro plan _ hp
    simp [productiveList] at hp
  | case2 k rest p ih =>
    intro plan h _
    cases hr : buildPlan rest with
    | error e => simp [buildPlan, hr, Except.map] at h
    | ok tail =>
      simp [buildPlan, hr, Except.map] at h
      subst h
      simp
  | case3 k rest ps ih =>
    intro plan h _
    cases hr : buildPlan rest with
    | error e => simp [buildPlan, hr, Except.map] at h
    | ok tail =>
      simp [buildPlan, hr, Except.map] at h
      subst h
      simp
  | case4 k rest f ih =>
    intro plan h _
    cases hr : buildPlan rest with
    | error e => simp [buildPlan, hr, Except.map] at h
    | ok tail =>
      simp [buildPlan, hr, Except.map] at h
      subst h
      simp
  | case5 k rest sp f ih =>
    intro plan h _
    cases hr : buildPlan rest with
    | error e => simp [buildPlan, hr, Except.map] at h
    | ok tail =>
      simp [buildPlan, hr, Except.map] at h
      subst h
      simp
  | case6 k rest es0 e herr ih =>
    intro plan h _
    simp [buildPlan, herr] at h
  | case7 k rest es0 sub hsub ih ihr =>
    intro plan h hp
    cases hr : buildPlan rest with
    | error e => simp [buildPlan, hsub, hr, Except.map] at h
    | ok tail =>
      simp [buildPlan, hsub, hr, Except.map] at h
      subst h
      have hp2 : productiveList es0 = true ∨ productiveList rest = true := by
        simpa [productiveList, productiveDecl, Bool.or_eq_true] using hp
      rcases hp2 with hp2 | hp2
      · have hsubne := ih sub hsub hp2
        cases sub with
        | nil => exact absurd rfl hsubne
        | cons a b => simp
      · have htailne := ihr tail hr hp2
        cases tail with
        | nil => exact absurd rfl htailne
        | cons a b => simp
  | case8 k rest v =>
    intro plan h _
    simp [buildPlan] at h

end Morphism

namespace Morphism

theorem insertKey_mem_self (ks : List String) (k : String) : k ∈ insertKey ks k := by
  by_cases h : k ∈ ks <;> simp [insertKey, h]

theorem insertKey_of_not_mem (ks : List String) (k : String) (h : k ∉ ks) :
    insertKey ks k = ks ++ [k] := by
  simp [insertKey, h]

theorem insertKeys_replicate (k : String) : ∀ (n : Nat) (ks : List String) (l : List String),
    k ∈ ks → insertKeys ks (List.replicate n k ++ l) = insertKeys ks l := by
  intro n
  induction n with
  | zero => intro ks l _; simp [List.replicate]
  | succ m ih =>
    intro ks l hk
    have he : insertKey ks k = ks := by simp [insertKey, hk]
    simp only [List.replicate, List.cons_append, insertKeys, he]
    exact ih ks l hk

theorem heads_of_prefixed (k : String) : ∀ sub : List PlanEntry,
    (sub.map (fun pe => (⟨k :: pe.dest, pe.action⟩ : PlanEntry))).map destHead
      = List.replicate sub.length k := by
  intro sub
  induction sub with
  | nil => simp
  | cons pe rest ih => simp [destHead, ih, List.replicate]

theorem buildPlan_insertKeys : ∀ es : SchemaM, ∀ plan,
    buildPlan es = Except.ok plan → allProductive es = true →
    (es.map Prod.fst).Nodup →
    ∀ ks : List String, (∀ k ∈ es.map Prod.fst, k ∉ ks) →
    insertKeys ks (plan.map destHead) = ks ++ es.map Prod.fst := by
  intro es
  induction es using buildPlan.induct with
  | case1 =>
    intro plan h _ _ ks _
    simp [buildPlan] at h
    subst h
    simp [insertKeys]
  | case2 k rest p ih =>
    intro plan h hprod hnd ks hdisj
    cases hr : buildPlan rest with
    | error e => simp [buildPlan, hr, Except.map] at h
    | ok tail =>
      simp [buildPlan, hr, Except.map] at h
      subst h
      have hk : k ∉ ks := hdisj k (by simp)
      have hknr : k ∉ rest.map Prod.fst := (List.nodup_cons.mp (by simpa using hnd)).1
      have hp2 := hprod
      simp only [allProductive, productiveDecl, Bool.and_eq_true] at hp2
      have ihr := ih tail hr hp2.2
        (List.nodup_cons.mp (by simpa using hnd)).2 (ks ++ [k])
        (by
          intro q hq
          simp only [List.mem_append, List.mem_singleton]
          rintro (hin | heq)
          · exact hdisj q (by simp [hq]) hin
          · exact hknr (heq ▸ hq))
      simp only [List.map_cons, destHead, List.headD, insertKeys]
      rw [insertKey_of_not_mem ks k hk, ihr]
      simp
  | case3 k rest ps ih =>
    intro plan h hprod hnd ks hdisj
    cases hr : buildPlan rest with
    | error e => simp [buildPlan, hr, Except.map] at h
    | ok tail =>
      simp [buildPlan, hr, Except.map] at h
      subst h
      have hk : k ∉ ks := hdisj k (by simp)
      have hknr : k ∉ rest.map Prod.fst := (List.nodup_cons.mp (by simpa using hnd)).1
      have hp2 := hprod
      simp only [allProductive, productiveDecl, Bool.and_eq_true] at hp2
      have ihr := ih tail hr hp2.2
        (List.nodup_cons.mp (by simpa using hnd)).2 (ks ++ [k])
        (by
          intro q hq
          simp only [List.mem_append, List.mem_singleton]
          rintro (hin | heq)
          · exact hdisj q (by simp [hq]) hin
          · exact hknr (heq ▸ hq))
      simp only [List.map_cons, destHead, List.headD, insertKeys]
      rw [insertKey_of_not_mem ks k hk, ihr]
      simp
  | case4 k rest f ih =>
    intro plan h hprod hnd ks hdisj
    cases hr : buildPlan rest with
    | error e => simp [buildPlan, hr, Except.map] at h
    | ok tail =>
      simp [buildPlan, hr, Except.map] at h
      subst h
      have hk : k ∉ ks := hdisj k (by simp)
      have hknr : k ∉ rest.map Prod.fst := (List.nodup_cons.mp (by simpa using hnd)).1
      have hp2 := hprod
      simp only [allProductive, productiveDecl, Bool.and_eq_true] at hp2
      have ihr := ih tail hr hp2.2
        (List.nodup_cons.mp (by simpa using hnd)).2 (ks ++ [k])
        (by
          intro q hq
          simp only [List.mem_append, List.mem_singleton]
          rintro (hin | heq)
          · exact hdisj q (by simp [hq]) hin
          · exact hknr (heq ▸ hq))
      simp only [List.map_cons, destHead, List.headD, insertKeys]
      rw [insertKey_of_not_mem ks k hk, ihr]
      simp
  | case5 k rest sp f ih =>
    intro plan h hprod hnd ks hdisj
    cases hr : buildPlan rest with
    | error e => simp [buildPlan, hr, Except.map] at h
    | ok tail =>
      simp [buildPlan, hr, Except.map] at h
      subst h
      have hk : k ∉ ks := hdisj k (by simp)
      have hknr : k ∉ rest.map Prod.fst := (List.nodup_cons.mp (by simpa using hnd)).1
      have hp2 := hprod
      simp only [allProductive, productiveDecl, Bool.and_eq_true] at hp2
      have ihr := ih tail hr hp2.2
        (List.nodup_cons.mp (by simpa using hnd)).2 (ks ++ [k])
        (by
          intro q hq
          simp only [List.mem_append, List.mem_singleton]
          rintro (hin | heq)
          · exact hdisj q (by simp [hq]) hin
          · exact hknr (heq ▸ hq))
      simp only [List.map_cons, destHead, List.headD, insertKeys]
      rw [insertKey_of_not_mem ks k hk, ihr]
      simp
  | case6 k rest es0 e herr ih =>
    intro plan h _ _ ks _
    simp [buildPlan, herr] at h
  | case7 k rest es0 sub hsub ih ihr =>
    intro plan h hprod hnd ks hdisj
    cases hr : buildPlan rest with
    | error e => simp [buildPlan, hsub, hr, Except.map] at h
    | ok tail =>
      simp [buildPlan, hsub, hr, Except.map] at h
      subst h
      have hk : k ∉ ks := hdisj k (by simp)
      have hknr : k ∉ rest.map Prod.fst := (List.nodup_cons.mp (by simpa using hnd)).1
      have hp2 := hprod
      simp only [allProductive, productiveDecl, Bool.and_eq_true] at hp2
      have hsubne : sub ≠ [] := buildPlan_productive_ne_nil es0 sub hsub hp2.1
      have ihtail := ihr tail hr hp2.2
        (List.nodup_cons.mp (by simpa using hnd)).2 (ks ++ [k])
        (by
          intro q hq
          simp only [List.mem_append, List.mem_singleton]
          rintro (hin | heq)
          · exact hdisj q (by simp [hq]) hin
          · exact hknr (heq ▸ hq))
      rw [List.map_append, heads_of_prefixed]
      obtain ⟨pe0, subrest, hsubl⟩ : ∃ pe0 subrest, sub = pe0 :: subrest := by
        cases sub with
        | nil => exact absurd rfl hsubne
        | cons a b => exact ⟨a, b, rfl⟩
      subst hsubl
      have hrep : List.replicate (pe0 :: subrest).length k
          = k :: List.replicate subrest.length k := by
        simp [List.replicate]
      rw [hrep, List.cons_append]
      show insertKeys (insertKey ks k)
        (List.replicate subrest.length k ++ List.map destHead tail) = _
      rw [insertKeys_replicate k subrest.length (insertKey ks k) (List.map destHead tail)
        (insertKey_mem_self ks k)]
      rw [insertKey_of_not_mem ks k hk, ihtail]
      simp
  | case8 k rest v =>
    intro plan h _ _ ks _
    simp [buildPlan] at h

end Morphism

namespace Morphism

theorem buildPlan_exists_head : ∀ es : SchemaM, ∀ plan,
    buildPlan es = Except.ok plan → allProductive es = true →
    ∀ k ∈ es.map Prod.fst, ∃ pe ∈ plan, destHead pe = k := by
  intro es
  induction es using buildPlan.induct with
  | case1 =>
    intro plan _ _ k hk
    simp at hk
  | case2 k0 rest p ih =>
    intro plan h hprod k hk
    cases hr : buildPlan rest with
    | error e => simp [buildPlan, hr, Except.map] at h
    | ok tail =>
      simp [buildPlan, hr, Except.map] at h
      subst h
      have hp2 := hprod
      simp only [allProductive, productiveDecl, Bool.and_eq_true] at hp2
      rcases (by simpa using hk : k = k0 ∨ ∃ x, (k, x) ∈ rest) with he | hex
      · exact ⟨⟨[k0], TerminalAction.path p⟩, by simp, by simp [destHead, he]⟩
      · obtain ⟨d2, hm⟩ := hex
        obtain ⟨pe, hpe, hh⟩ := ih tail hr hp2.2 k (List.mem_map.mpr ⟨(k, d2), hm, rfl⟩)
        exact ⟨pe, by simp [hpe], hh⟩
  | case3 k0 rest ps ih =>
    intro plan h hprod k hk
    cases hr : buildPlan rest with
    | error e => simp [buildPlan, hr, Except.map] at h
    | ok tail =>
      simp [buildPlan, hr, Except.map] at h
      subst h
      have hp2 := hprod
      simp only [allProductive, productiveDecl, Bool.and_eq_true] at hp2
      rcases (by simpa using hk : k = k0 ∨ ∃ x, (k, x) ∈ rest) with he | hex
      · exact ⟨⟨[k0], TerminalAction.aggregator ps⟩, by simp, by simp [destHead, he]⟩
      · obtain ⟨d2, hm⟩ := hex
        obtain ⟨pe, hpe, hh⟩ := ih tail hr hp2.2 k (List.mem_map.mpr ⟨(k, d2), hm, rfl⟩)
        exact ⟨pe, by simp [hpe], hh⟩
  | case4 k0 rest f ih =>
    intro plan h hprod k hk
    cases hr : buildPlan rest with
    | error e => simp [buildPlan, hr, Except.map] at h
    | ok tail =>
      simp [buildPlan, hr, Except.map] at h
      subst h
      have hp2 := hprod
      simp only [allProductive, productiveDecl, Bool.and_eq_true] at hp2
      rcases (by simpa using hk : k = k0 ∨ ∃ x, (k, x) ∈ rest) with he | hex
      · exact ⟨⟨[k0], TerminalAction.func f⟩, by simp, by simp [destHead, he]⟩
      · obtain ⟨d2, hm⟩ := hex
        obtain ⟨pe, hpe, hh⟩ := ih tail hr hp2.2 k (List.mem_map.mpr ⟨(k, d2), hm, rfl⟩)
        exact ⟨pe, by simp [hpe], hh⟩
  | case5 k0 rest sp f ih =>
    intro plan h hprod k hk
    cases hr : buildPlan rest with
    | error e => simp [buildPlan, hr, Except.map] at h
    | ok tail =>
      simp [buildPlan, hr, Except.map] at h
      subst h
      have hp2 := hprod
      simp only [allProductive, productiveDecl, Bool.and_eq_true] at hp2
      rcases (by simpa using hk : k = k0 ∨ ∃ x, (k, x) ∈ rest) with he | hex
      · exact ⟨⟨[k0], TerminalAction.selector sp f⟩, by simp, by simp [destHead, he]⟩
      · obtain ⟨d2, hm⟩ := hex
        obtain ⟨pe, hpe, hh⟩ := ih tail hr hp2.2 k (List.mem_map.mpr ⟨(k, d2), hm, rfl⟩)
        exact ⟨pe, by simp [hpe], hh⟩
  | case6 k0 rest es0 e herr ih =>
    intro plan h _ k hk
    simp [buildPlan, herr] at h
  | case7 k0 rest es0 sub hsub ih ihr =>
    intro plan h hprod k hk
    cases hr : buildPlan rest with
    | error e => simp [buildPlan, hsub, hr, Except.map] at h
    | ok tail =>
      simp [buildPlan, hsub, hr, Except.map] at h
      subst h
      have hp2 := hprod
      simp only [allProductive, productiveDecl, Bool.and_eq_true] at hp2
      rcases (by simpa using hk : k = k0 ∨ ∃ x, (k, x) ∈ rest) with he | hex
      · have hsubne : sub ≠ [] := buildPlan_productive_ne_nil es0 sub hsub hp2.1
        obtain ⟨pe0, subrest, hsubl⟩ : ∃ pe0 subrest, sub = pe0 :: subrest := by
          cases sub with
          | nil => exact absurd rfl hsubne
          | cons a b => exact ⟨a, b, rfl⟩
        subst hsubl
        exact ⟨⟨k0 :: pe0.dest, pe0.action⟩, by simp, by simp [destHead, he]⟩
      · obtain ⟨d2, hm⟩ := hex
        obtain ⟨pe, hpe, hh⟩ := ihr tail hr hp2.2 k (List.mem_map.mpr ⟨(k, d2), hm, rfl⟩)
        exact ⟨pe, by simp [hpe], hh⟩
  | case8 k0 rest v =>
    intro plan h _ k hk
    simp [buildPlan] at h

end Morphism

namespace Morphism

theorem buildPlan_countP_zero : ∀ es : SchemaM, ∀ plan,
    buildPlan es = Except.ok plan → ∀ k, k ∉ es.map Prod.fst →
    plan.countP (fun pe => destHead pe == k) = 0 := by
  intro es
  induction es using buildPlan.induct with
  | case1 =>
    intro plan h k _
    simp [buildPlan] at h
    subst h
    simp
  | case2 k0 rest p ih =>
    intro plan h k hk
    cases hr : buildPlan rest with
    | error e => simp [buildPlan, hr, Except.map] at h
    | ok tail =>
      simp [buildPlan, hr, Except.map] at h
      subst h
      have hne : ¬ (k0 = k) := fun he => hk (by simp [he])
      have hz := ih tail hr k (fun hm => hk (by simp at hm ⊢; exact Or.inr hm))
      rw [List.countP_cons, hz]
      simp [destHead, hne]
  | case3 k0 rest ps ih =>
    intro plan h k hk
    cases hr : buildPlan rest with
    | error e => simp [buildPlan, hr, Except.map] at h
    | ok tail =>
      simp [buildPlan, hr, Except.map] at h
      subst h
      have hne : ¬ (k0 = k) := fun he => hk (by simp [he])
      have hz := ih tail hr k (fun hm => hk (by simp at hm ⊢; exact Or.inr hm))
      rw [List.countP_cons, hz]
      simp [destHead, hne]
  | case4 k0 rest f ih =>
    intro plan h k hk
    cases hr : buildPlan rest with
    | error e => simp [buildPlan, hr, Except.map] at h
    | ok tail =>
      simp [buildPlan, hr, Except.map] at h
      subst h
      have hne : ¬ (k0 = k) := fun he => hk (by simp [he])
      have hz := ih tail hr k (fun hm => hk (by simp at hm ⊢; exact Or.inr hm))
      rw [List.countP_cons, hz]
      simp [destHead, hne]
  | case5 k0 rest sp f ih =>
    intro plan h k hk
    cases hr : buildPlan rest with
    | error e => simp [buildPlan, hr, Except.map] at h
    | ok tail =>
      simp [buildPlan, hr, Except.map] at h
      subst h
      have hne : ¬ (k0 = k) := fun he => hk (by simp [he])
      have hz := ih tail hr k (fun hm => hk (by simp at hm ⊢; exact Or.inr hm))
      rw [List.countP_cons, hz]
      simp [destHead, hne]
  | case6 k0 rest es0 e herr ih =>
    intro plan h k hk
    simp [buildPlan, herr] at h
  | case7 k0 rest es0 sub hsub ih ihr =>
    intro plan h k hk
    cases hr : buildPlan rest with
    | error e => simp [buildPlan, hsub, hr, Except.map] at h
    | ok tail =>
      simp [buildPlan, hsub, hr, Except.map] at h
      subst h
      have hne : ¬ (k0 = k) := fun he => hk (by simp [he])
      have hz := ihr tail hr k (fun hm => hk (by simp at hm ⊢; exact Or.inr hm))
      rw [List.countP_append]
      have hzl : List.countP (fun pe => destHead pe == k)
          (sub.map (fun pe => (⟨k0 :: pe.dest, pe.action⟩ : PlanEntry))) = 0 := by
        rw [List.countP_eq_zero]
        intro pe hpe
        obtain ⟨pe0, _, hpe0⟩ := List.mem_map.mp hpe
        rw [← hpe0]
        simp [destHead, hne]
      rw [hzl, hz]
  | case8 k0 rest v =>
    intro plan h k hk
    simp [buildPlan] at h

theorem buildPlan_countP_one : ∀ es : SchemaM, ∀ plan,
    buildPlan es = Except.ok plan → (es.map Prod.fst).Nodup →
    ∀ k d, (k, d) ∈ es → terminalDecl d = true →
    plan.countP (fun pe => destHead pe == k) = 1 := by
  intro es
  induction es using buildPlan.induct with
  | case1 =>
    intro plan h _ k d hm _
    cases hm
  | case2 k0 rest p ih =>
    intro plan h hnd k d hm hterm
    cases hr : buildPlan rest with
    | error e => simp [buildPlan, hr, Except.map] at h
    | ok tail =>
      simp [buildPlan, hr, Except.map] at h
      subst h
      have hk0nr : k0 ∉ rest.map Prod.fst := (List.nodup_cons.mp (by simpa using hnd)).1
      rcases List.mem_cons.mp hm with he | hmr
      · have hke : k = k0 := (Prod.mk.injEq _ _ _ _).mp he |>.1
        subst hke
        have hz := buildPlan_countP_zero rest tail hr k hk0nr
        rw [List.countP_cons, hz]
        simp [destHead]
      · have hkr : k ∈ rest.map Prod.fst := List.mem_map.mpr ⟨(k, d), hmr, rfl⟩
        have hne : ¬ (k0 = k) := fun he => hk0nr (he ▸ hkr)
        have h1 := ih tail hr (List.nodup_cons.mp (by simpa using hnd)).2 k d hmr hterm
        rw [List.countP_cons, h1]
        simp [destHead, hne]
  | case3 k0 rest ps ih =>
    intro plan h hnd k d hm hterm
    cases hr : buildPlan rest with
    | error e => simp [buildPlan, hr, Except.map] at h
    | ok tail =>
      simp [buildPlan, hr, Except.map] at h
      subst h
      have hk0nr : k0 ∉ rest.map Prod.fst := (List.nodup_cons.mp (by simpa using hnd)).1
      rcases List.mem_cons.mp hm with he | hmr
      · have hke : k = k0 := (Prod.mk.injEq _ _ _ _).mp he |>.1
        subst hke
        have hz := buildPlan_countP_zero rest tail hr k hk0nr
        rw [List.countP_cons, hz]
        simp [destHead]
      · have hkr : k ∈ rest.map Prod.fst := List.mem_map.mpr ⟨(k, d), hmr, rfl⟩
        have hne : ¬ (k0 = k) := fun he => hk0nr (he ▸ hkr)
        have h1 := ih tail hr (List.nodup_cons.mp (by simpa using hnd)).2 k d hmr hterm
        rw [List.countP_cons, h1]
        simp [destHead, hne]
  | case4 k0 rest f ih =>
    intro plan h hnd k d hm hterm
    cases hr : buildPlan rest with
    | error e => simp [buildPlan, hr, Except.map] at h
    | ok tail =>
      simp [buildPlan, hr, Except.map] at h
      subst h
      have hk0nr : k0 ∉ rest.map Prod.fst := (List.nodup_cons.mp (by simpa using hnd)).1
      rcases List.mem_cons.mp hm with he | hmr
      · have hke : k = k0 := (Prod.mk.injEq _ _ _ _).mp he |>.1
        subst hke
        have hz := buildPlan_countP_zero rest tail hr k hk0nr
        rw [List.countP_cons, hz]
        simp [destHead]
      · have hkr : k ∈ rest.map Prod.fst := List.mem_map.mpr ⟨(k, d), hmr, rfl⟩
        have hne : ¬ (k0 = k) := fun he => hk0nr (he ▸ hkr)
        have h1 := ih tail hr (List.nodup_cons.mp (by simpa using hnd)).2 k d hmr hterm
        rw [List.countP_cons, h1]
        simp [destHead, hne]
  | case5 k0 rest sp f ih =>
    intro plan h hnd k d hm hterm
    cases hr : buildPlan rest with
    | error e => simp [buildPlan, hr, Except.map] at h
    | ok tail =>
      simp [buildPlan, hr, Except.map] at h
      subst h
      have hk0nr : k0 ∉ rest.map Prod.fst := (List.nodup_cons.mp (by simpa using hnd)).1
      rcases List.mem_cons.mp hm with he | hmr
      · have hke : k = k0 := (Prod.mk.injEq _ _ _ _).mp he |>.1
        subst hke
        have hz := buildPlan_countP_zero rest tail hr k hk0nr
        rw [List.countP_cons, hz]
        simp [destHead]
      · have hkr : k ∈ rest.map Prod.fst := List.mem_map.mpr ⟨(k, d), hmr, rfl⟩
        have hne : ¬ (k0 = k) := fun he => hk0nr (he ▸ hkr)
        have h1 := ih tail hr (List.nodup_cons.mp (by simpa using hnd)).2 k d hmr hterm
        rw [List.countP_cons, h1]
        simp [destHead, hne]
  | case6 k0 rest es0 e herr ih =>
    intro plan h _ k d hm _
    simp [buildPlan, herr] at h
  | case7 k0 rest es0 sub hsub ih ihr =>
    intro plan h hnd k d hm hterm
    cases hr : buildPlan rest with
    | error e => simp [buildPlan, hsub, hr, Except.map] at h
    | ok tail =>
      simp [buildPlan, hsub, hr, Except.map] at h
      subst h
      have hk0nr : k0 ∉ rest.map Prod.fst := (List.nodup_cons.mp (by simpa using hnd)).1
      rcases List.mem_cons.mp hm with he | hmr
      · have hke : d = Decl.nested es0 := (Prod.mk.injEq _ _ _ _).mp he |>.2
        rw [hke] at hterm
        simp [terminalDecl] at hterm
      · have hkr : k ∈ rest.map Prod.fst := List.mem_map.mpr ⟨(k, d), hmr, rfl⟩
        have hne : ¬ (k0 = k) := fun he => hk0nr (he ▸ hkr)
        have h1 := ihr tail hr (List.nodup_cons.mp (by simpa using hnd)).2 k d hmr hterm
        rw [List.countP_append]
        have hzl : List.countP (fun pe => destHead pe == k)
            (sub.map (fun pe => (⟨k0 :: pe.dest, pe.action⟩ : PlanEntry))) = 0 := by
          rw [List.countP_eq_zero]
          intro pe hpe
          obtain ⟨pe0, _, hpe0⟩ := List.mem_map.mp hpe
          rw [← hpe0]
          simp [destHead, hne]
        rw [hzl, h1]
  | case8 k0 rest v =>
    intro plan h _ k d hm _
    simp [buildPlan] at h

end Morphism

namespace Morphism

/-- C10 (amended): for a schema whose declared destination keys are
distinct and in which every nested sub-schema recursively flattens to at
least one plan entry, the top-level keys of the target record produced by
a successful single-record transformation are exactly the declared
destination keys, in declaration order — no key outside the schema key set
ever appears; moreover every declared key is assigned by at least one plan
entry, and a key declared with a terminal (non-nested) action by exactly
one. -/
theorem c10_target_keys (schema : SchemaM) (srcFields : List (String × Value)) (t : Value)
    (hnd : (schema.map Prod.fst).Nodup)
    (hprod : allProductive schema = true)
    (ht : transform schema (Value.obj srcFields) = Except.ok t) :
    topKeys t = schema.map Prod.fst
    ∧ ∀ plan, buildPlan schema = Except.ok plan →
        ((∀ k ∈ schema.map Prod.fst, ∃ pe ∈ plan, destHead pe = k)
          ∧ ∀ k d, (k, d) ∈ schema → terminalDecl d = true →
              plan.countP (fun pe => destHead pe == k) = 1) := by
  cases hb : buildPlan schema with
  | error e =>
    rw [transform.eq_def, hb] at ht
    cases ht
  | ok plan =>
    rw [transform.eq_def, hb] at ht
    have hrun : runPlan [Value.obj srcFields] (Value.obj srcFields) plan (Value.obj []) =
        Except.ok t := ht
    obtain ⟨gs, hgs, hks⟩ := runPlan_keys [Value.obj srcFields] (Value.obj srcFields) plan [] t
      (buildPlan_dest_nonempty schema plan hb) hrun
    have hins := buildPlan_insertKeys schema plan hb hprod hnd [] (by simp)
    refine ⟨?_, ?_⟩
    · rw [hgs]
      show gs.map Prod.fst = schema.map Prod.fst
      rw [hks]
      simpa using hins
    · intro plan2 hb2
      injection hb2 with h4
      subst h4
      exact ⟨buildPlan_exists_head schema plan hb hprod,
        fun k d hm hterm => buildPlan_countP_one schema plan hb hnd k d hm hterm⟩

/-- C10 witness: a schema with one path action and one nested single-entry
sub-schema, applied to the empty record. -/
theorem c10_target_keys_witness :
    (((([("p", Decl.str ("a")), ("n", Decl.nested [("q", Decl.str ("b"))])] : SchemaM).map
        Prod.fst).Nodup)
      ∧ allProductive [("p", Decl.str ("a")), ("n", Decl.nested [("q", Decl.str ("b"))])] = true
      ∧ transform [("p", Decl.str ("a")), ("n", Decl.nested [("q", Decl.str ("b"))])]
          (Value.obj []) =
        Except.ok (Value.obj [("p", Value.undefined), ("n", Value.obj [("q", Value.undefined)])]))
    ∧ (topKeys (Value.obj [("p", Value.undefined), ("n", Value.obj [("q", Value.undefined)])]) =
        ([("p", Decl.str ("a")), ("n", Decl.nested [("q", Decl.str ("b"))])] : SchemaM).map
          Prod.fst
      ∧ ∀ plan, buildPlan [("p", Decl.str ("a")), ("n", Decl.nested [("q", Decl.str ("b"))])] =
          Except.ok plan →
          ((∀ k ∈ ([("p", Decl.str ("a")), ("n", Decl.nested [("q", Decl.str ("b"))])] :
              SchemaM).map Prod.fst, ∃ pe ∈ plan, destHead pe = k)
            ∧ ∀ k d, (k, d) ∈ ([("p", Decl.str ("a")),
                ("n", Decl.nested [("q", Decl.str ("b"))])] : SchemaM) →
                terminalDecl d = true →
                plan.countP (fun pe => destHead pe == k) = 1)) := by
  have hnd : ((([("p", Decl.str ("a")), ("n", Decl.nested [("q", Decl.str ("b"))])] :
      SchemaM).map Prod.fst).Nodup) := by
    simp
  have hprod : allProductive
      [("p", Decl.str ("a")), ("n", Decl.nested [("q", Decl.str ("b"))])] = true := by
    simp [allProductive, productiveDecl, productiveList]
  have hplan : buildPlan [("p", Decl.str ("a")), ("n", Decl.nested [("q", Decl.str ("b"))])] =
      Except.ok [⟨["p"], TerminalAction.path ("a")⟩, ⟨["n", "q"], TerminalAction.path ("b")⟩] := by
    simp [buildPlan, Except.map]
  have ht : transform [("p", Decl.str ("a")), ("n", Decl.nested [("q", Decl.str ("b"))])]
      (Value.obj []) =
      Except.ok (Value.obj [("p", Value.undefined), ("n", Value.obj [("q", Value.undefined)])]) := by
    rw [transform.eq_def, hplan]
    rfl
  exact ⟨⟨hnd, hprod, ht⟩, c10_target_keys _ [] _ hnd hprod ht⟩

/-- C10 counterexample: a nested sub-schema with two entries makes its
top-level destination key be assigned by two plan entries, refuting the
claim that every declared destination key is assigned by exactly one plan
entry. -/
theorem c10_counterexample :
    ¬ (∀ plan, buildPlan [("out", Decl.nested [("a", Decl.str ("x")), ("b", Decl.str ("y"))])] =
        Except.ok plan →
        ∀ k d, (k, d) ∈ ([("out", Decl.nested [("a", Decl.str ("x")), ("b", Decl.str ("y"))])] :
            SchemaM) →
          plan.countP (fun pe => destHead pe == k) = 1) := by
  intro h
  have hplan : buildPlan [("out", Decl.nested [("a", Decl.str ("x")), ("b", Decl.str ("y"))])] =
      Except.ok [⟨["out", "a"], TerminalAction.path ("x")⟩,
        ⟨["out", "b"], TerminalAction.path ("y")⟩] := by
    simp [buildPlan, Except.map]
  have h2 := h _ hplan ("out") (Decl.nested [("a", Decl.str ("x")), ("b", Decl.str ("y"))])
    (by simp)
  rw [show List.countP (fun pe => destHead pe == "out")
      [(⟨["out", "a"], TerminalAction.path ("x")⟩ : PlanEntry),
        ⟨["out", "b"], TerminalAction.path ("y")⟩] = 2 by rfl] at h2
  cases h2

end Morphism
